import Mathlib

/-!
Verification of the email batch-processing system: data model (`models.py`),
delivery sink (`sink.py`) and dependency scheduler (`scheduler.py`).

The Python code is shallowly embedded: pure computations become Lean
functions, the mutable scheduler and sink become explicit state passing,
Python `int` becomes `Int`/`Nat`, the float deadline offset is modelled as
an exact rational, and the delivery collaborator (`EmailClient.post_response`)
is modelled as a function from the attempt number to its outcome
(return normally, raise `HTTPStatusError` with a status code, or raise any
other exception).  `heapq` is modelled by its observable behaviour: `heappush`
adds an entry to the multiset, `heappop` removes and returns the least entry
in the lexicographic order on `(deadline_ns, email_id)` pairs (for the
distinct entries arising here this determines the result uniquely).
-/

namespace EmailSys

/-- Decidable equality for `Except`, used to evaluate scheduler construction
on concrete inputs. -/
instance {ε α : Type} [DecidableEq ε] [DecidableEq α] : DecidableEq (Except ε α)
  | .error a, .error b =>
    if h : a = b then .isTrue (by rw [h])
    else .isFalse (fun hh => h (Except.error.inj hh))
  | .error _, .ok _ => .isFalse (fun hh => Except.noConfusion hh)
  | .ok _, .error _ => .isFalse (fun hh => Except.noConfusion hh)
  | .ok a, .ok b =>
    if h : a = b then .isTrue (by rw [h])
    else .isFalse (fun hh => h (Except.ok.inj hh))

/-- Python `int()` applied to an exact rational: truncation toward zero. -/
def pyTrunc (q : ℚ) : ℤ := if 0 ≤ q then ⌊q⌋ else ⌈q⌉

/-- Raw email object as received from the GET endpoint (`models.EmailIn`). -/
structure EmailIn where
  email_id : String
  subject : String
  body : String
  deadline : ℚ
  dependencies : List String
deriving DecidableEq

/-- Enriched representation with absolute nanosecond deadline
(`models.EmailInternal`). -/
structure EmailInternal extends EmailIn where
  deadline_ns : ℤ
deriving DecidableEq

/-- Embedding of `EmailInternal.from_external`: the code computes
`fetch_start_ns + int(raw.deadline * 1_000_000_000)`. -/
def EmailInternal.from_external (raw : EmailIn) (fetch_start_ns : ℤ) : EmailInternal :=
  { raw with deadline_ns := fetch_start_ns + pyTrunc (raw.deadline * 1000000000) }

/-! ### Delivery sink (`sink.py`) -/

/-- Outcome of one call to the delivery collaborator
(`EmailClient.post_response`): normal return, a raised
`httpx.HTTPStatusError` carrying a status code, or any other raised
exception (transport errors etc.). -/
inductive PostOutcome
  | success
  | httpStatus (code : ℕ)
  | otherError
deriving DecidableEq

/-- State of a `ResponseSink`: the effective retry cap and the three
metrics counters. -/
structure ResponseSink where
  max_retries : ℤ
  success_count : ℕ
  failure_count : ℕ
  retry_count : ℕ
deriving DecidableEq

/-- Default `settings.max_retries` from `config.py`. -/
def settingsMaxRetries : ℤ := 3

/-- Embedding of `ResponseSink.__init__`: the Python code sets
`self._max_retries = max_retries or settings.max_retries`, so `None` and
the falsy value `0` both fall back to the configured default. -/
def ResponseSink.init (max_retries : Option ℤ) : ResponseSink :=
  { max_retries :=
      match max_retries with
      | none => settingsMaxRetries
      | some v => if v = 0 then settingsMaxRetries else v
    success_count := 0
    failure_count := 0
    retry_count := 0 }

/-- Result of one call to `ResponseSink.send`: the sink state after the
call (counter mutations persist even when an exception propagates),
whether an exception escaped `send`, and how many collaborator attempts
were made. -/
structure SendResult where
  sink : ResponseSink
  raised : Bool
  attempts : ℕ
deriving DecidableEq

/-- Loop body of `ResponseSink.send`, iterating over the remaining attempt
numbers of `range(1, max_retries + 1)`.  On success the success counter is
bumped and the loop returns; on a 4xx `HTTPStatusError` the failure counter
is bumped and the loop returns; on any other `HTTPStatusError` the failure
counter is bumped and the loop returns when `attempt >= max_retries`,
otherwise the retry counter is bumped (after the back-off sleep, which has
no observable effect here) and the loop continues; any other exception
propagates out of `send`. -/
def sendLoop (f : ℕ → PostOutcome) (mr : ℤ) :
    List ℕ → ResponseSink → ℕ → SendResult
  | [], st, a => ⟨st, false, a⟩
  | attempt :: rest, st, a =>
    match f attempt with
    | .success => ⟨{ st with success_count := st.success_count + 1 }, false, a + 1⟩
    | .otherError => ⟨st, true, a + 1⟩
    | .httpStatus code =>
      if 400 ≤ code ∧ code < 500 then
        ⟨{ st with failure_count := st.failure_count + 1 }, false, a + 1⟩
      else if mr ≤ (attempt : ℤ) then
        ⟨{ st with failure_count := st.failure_count + 1 }, false, a + 1⟩
      else
        sendLoop f mr rest { st with retry_count := st.retry_count + 1 } (a + 1)

/-- Embedding of `ResponseSink.send`: run the attempt loop over
`range(1, max_retries + 1)` against the collaborator behaviour `f`
(`f n` is the outcome of the `n`-th call to `post_response`). -/
def ResponseSink.send (st : ResponseSink) (f : ℕ → PostOutcome) : SendResult :=
  sendLoop f st.max_retries (List.range' 1 st.max_retries.toNat) st 0

/-! ### Dependency scheduler (`scheduler.py`) -/

/-- Association list modelling a Python `dict[str, set[str]]`; lookups take
the first matching key (for the unique keys produced by a dict the two
semantics agree). -/
abbrev DepsMap := List (String × List String)

/-- Dictionary lookup with `[]` for a missing key, as used by
`self.deps_map[child]` and `graphlib`, which treats ids appearing only as
predecessors as nodes with no dependencies. -/
def lookupDeps (m : DepsMap) (x : String) : List String :=
  ((m.find? (fun p => p.1 == x)).map Prod.snd).getD []

/-- Dictionary value update for an existing key. -/
def updateDeps (m : DepsMap) (x : String) (v : List String) : DepsMap :=
  m.map (fun p => if p.1 == x then (p.1, v) else p)

/-- Lexicographic order on `(deadline_ns, email_id)` heap entries, matching
Python tuple comparison in `heapq`. -/
def entryLe (a b : ℤ × String) : Prop :=
  a.1 < b.1 ∨ (a.1 = b.1 ∧ a.2 ≤ b.2)

instance (a b : ℤ × String) : Decidable (entryLe a b) := by
  unfold entryLe; infer_instance

/-- Least entry of the heap's multiset of `(deadline_ns, email_id)` pairs,
which is what `heapq.heappop` returns. -/
def heapMin : List (ℤ × String) → Option (ℤ × String)
  | [] => none
  | x :: xs =>
    match heapMin xs with
    | none => some x
    | some m => if entryLe x m then some x else some m

/-- Observable behaviour of `heapq.heappop`: remove and return the least
entry; `none` on an empty heap. -/
def heappop (q : List (ℤ × String)) : Option ((ℤ × String) × List (ℤ × String)) :=
  match heapMin q with
  | none => none
  | some m => some (m, q.erase m)

/-- Observable behaviour of `heapq.heappush`: add an entry to the multiset. -/
def heappush (q : List (ℤ × String)) (x : ℤ × String) : List (ℤ × String) :=
  x :: q

/-- State of a `DependencyScheduler`: the construction input (backing the
immutable `dependents_map` and `_emails` maps), the mutable unmet-dependency
map `deps_map`, and the ready queue `_queue`. -/
structure DependencyScheduler where
  emails0 : List EmailInternal
  deps_map : DepsMap
  queue : List (ℤ × String)
deriving DecidableEq

/-- Embedding of `self.deps_map = {e.email_id: set(e.dependencies) for e in emails}`
(`set` removes duplicate entries). -/
def buildDepsMap (emails : List EmailInternal) : DepsMap :=
  emails.map (fun e => (e.email_id, e.dependencies.dedup))

/-- Embedding of the ready-queue initialisation loop: push every email whose
unmet-dependency set is empty, keyed by `(deadline_ns, email_id)`. -/
def initQueue (emails : List EmailInternal) (dm : DepsMap) : List (ℤ × String) :=
  emails.foldl
    (fun q e => if lookupDeps dm e.email_id = [] then heappush q (e.deadline_ns, e.email_id) else q)
    []

/-- One round of Kahn's algorithm as performed by
`graphlib.TopologicalSorter(...).prepare()`: keep exactly the ids that are
still blocked, i.e. that have a dependency among the remaining ids.
Dependencies that are not keys of the map never block (graphlib treats them
as nodes with no dependencies). -/
def kahnStep (dm : DepsMap) (remaining : List String) : List String :=
  remaining.filter (fun x => (lookupDeps dm x).any (fun d => remaining.contains d))

/-- Iterating `kahnStep` once per node reaches the residual set of ids that
can never be released; it is nonempty exactly when the graph has a cycle. -/
def kahnResidual (dm : DepsMap) : List String :=
  (kahnStep dm)^[dm.length] (dm.map Prod.fst)

/-- Cycle test equivalent to `graphlib.TopologicalSorter(deps_map).prepare()`
raising `CycleError`. -/
def hasCycleB (dm : DepsMap) : Bool :=
  !(kahnResidual dm).isEmpty

/-- Embedding of `DependencyScheduler.__init__`: build `deps_map`, run the
cycle check (raising `ValueError` on a cycle, before the ready queue is
built), then initialise the ready queue. -/
def DependencyScheduler.build (emails : List EmailInternal) :
    Except String DependencyScheduler :=
  if hasCycleB (buildDepsMap emails) then .error "Dependency cycle detected"
  else .ok { emails0 := emails, deps_map := buildDepsMap emails,
             queue := initQueue emails (buildDepsMap emails) }

/-- Embedding of the `self._emails[eid]` dictionary lookup. -/
def DependencyScheduler.findEmail (s : DependencyScheduler) (eid : String) :
    Option EmailInternal :=
  s.emails0.find? (fun e => e.email_id == eid)

/-- Embedding of `get_ready_batch`: pop up to `count` ready emails ordered by
earliest deadline. -/
def DependencyScheduler.get_ready_batch (s : DependencyScheduler) :
    ℕ → List EmailInternal × DependencyScheduler
  | 0 => ([], s)
  | n + 1 =>
    match heappop s.queue with
    | none => ([], s)
    | some (m, q') =>
      let rest := DependencyScheduler.get_ready_batch { s with queue := q' } n
      ((s.findEmail m.2).elim rest.1 (· :: rest.1), rest.2)

/-- Embedding of `pop_next`: `get_ready_batch(1)` and return its head, if
any. -/
def DependencyScheduler.pop_next (s : DependencyScheduler) :
    Option EmailInternal × DependencyScheduler :=
  let r := s.get_ready_batch 1
  (r.1.head?, r.2)

/-- Dependents of `pid` as recorded in the immutable `dependents_map` built
during `__init__`: the ids of the emails that declare `pid` as a
dependency. -/
def dependentsOf (emails : List EmailInternal) (pid : String) : List String :=
  (emails.filter (fun e => e.dependencies.contains pid)).map (fun e => e.email_id)

/-- Body of the `mark_done` loop for one dependent `child`: discard `pid`
from the child's unmet-dependency set and, if the set became empty, push the
child onto the ready queue keyed by its own deadline. -/
def markChild (pid : String) (s : DependencyScheduler) (child : String) :
    DependencyScheduler :=
  let deps := (lookupDeps s.deps_map child).filter (fun d => d != pid)
  let s' := { s with deps_map := updateDeps s.deps_map child deps }
  if deps = [] then
    match s'.findEmail child with
    | some ce => { s' with queue := heappush s'.queue (ce.deadline_ns, child) }
    | none => s'
  else s'

/-- Embedding of `mark_done`: process every dependent of `email_id`. -/
def DependencyScheduler.mark_done (s : DependencyScheduler) (email_id : String) :
    DependencyScheduler :=
  (dependentsOf s.emails0 email_id).foldl (markChild email_id) s

/-- Embedding of `has_work`: `bool(self._queue)`. -/
def DependencyScheduler.has_work (s : DependencyScheduler) : Bool :=
  !s.queue.isEmpty

/-- Embedding of the legacy alias `has_next`. -/
def DependencyScheduler.has_next (s : DependencyScheduler) : Bool :=
  s.has_work

/-! ### Operation sequences against one scheduler -/

/-- Scheduler operations available to the orchestrator. -/
inductive Op
  | pop
  | batch (count : ℕ)
  | done (email_id : String)
deriving DecidableEq

/-- Trace of a run: current scheduler state, the log of popped emails (each
with the list of ids that had been marked done when it was popped), and the
ids marked done so far. -/
structure Trace where
  sched : DependencyScheduler
  popped : List (EmailInternal × List String)
  doneIds : List String

/-- Apply one operation to a trace. -/
def stepOp (t : Trace) : Op → Trace
  | .pop =>
    let r := t.sched.pop_next
    { t with
      sched := r.2
      popped := (r.1.elim [] (fun e => [(e, t.doneIds)])) ++ t.popped }
  | .batch n =>
    let r := t.sched.get_ready_batch n
    { t with sched := r.2, popped := r.1.map (fun e => (e, t.doneIds)) ++ t.popped }
  | .done i =>
    { t with sched := t.sched.mark_done i, doneIds := i :: t.doneIds }

/-- Run a sequence of operations from a freshly built scheduler. -/
def runOps (s0 : DependencyScheduler) (ops : List Op) : Trace :=
  ops.foldl stepOp { sched := s0, popped := [], doneIds := [] }

/-- Ids passed to `mark_done` by an operation sequence. -/
def doneOf (ops : List Op) : List String :=
  ops.filterMap (fun op => match op with | .done i => some i | _ => none)

/-! ### Specification-level definitions -/

/-- Dependency relation on the ids as recorded in a dependency map:
`depRel dm a b` holds when `b` is among the unmet dependencies of `a`. -/
def depRel (dm : DepsMap) (a b : String) : Prop :=
  b ∈ lookupDeps dm a

/-- Declared dependency relation of a batch, straight from the spec's words:
`a` depends on `b` when some item of the batch with id `a` declares `b`. -/
def declaredDep (emails : List EmailInternal) (a b : String) : Prop :=
  ∃ e ∈ emails, e.email_id = a ∧ b ∈ e.dependencies

/-- Existence of a dependency cycle in a batch: some id reaches itself
through one or more declared dependency edges. -/
def hasDepCycle (emails : List EmailInternal) : Prop :=
  ∃ x, Relation.TransGen (declaredDep emails) x x

/-- Unmet dependencies an item should have after the ids in `done` have been
marked done: its declared dependencies (deduplicated, in declaration order)
minus the done ids. -/
def unmetSpec (emails : List EmailInternal) (done : List String) (x : String) :
    List String :=
  (lookupDeps (buildDepsMap emails) x).filter (fun d => !done.contains d)

/-- Data invariant tying a scheduler state reached after marking `done` ids
done back to the construction input `emails`: the construction input is
remembered, the key set of `deps_map` is the batch's id set, every id's
unmet-dependency entry is its declared dependencies minus `done`, and every
ready-queue entry carries the deadline of the (unique) email it names, an
email whose unmet-dependency set is empty. -/
def Inv (emails : List EmailInternal) (done : List String)
    (s : DependencyScheduler) : Prop :=
  s.emails0 = emails ∧
  s.deps_map.map Prod.fst = emails.map (fun e => e.email_id) ∧
  (∀ x, lookupDeps s.deps_map x = unmetSpec emails done x) ∧
  (∀ m ∈ s.queue,
    (∃ e, s.findEmail m.2 = some e ∧ m.1 = e.deadline_ns) ∧
    unmetSpec emails done m.2 = [])

/-- Trace invariant: the scheduler-state invariant holds for the done ids
recorded so far, and every popped item had all of its declared dependencies
marked done at the moment it was popped. -/
def TraceInv (emails : List EmailInternal) (t : Trace) : Prop :=
  Inv emails t.doneIds t.sched ∧
  ∀ p ∈ t.popped, ∀ d ∈ p.1.dependencies, d ∈ p.2

/-- Invariant for an item `xid` declaring a dependency on a foreign id
`fid`: the foreign id stays in `xid`'s unmet-dependency entry and `xid`
never appears in the ready queue. -/
def ForeignInv (emails : List EmailInternal) (xid fid : String)
    (s : DependencyScheduler) : Prop :=
  s.emails0 = emails ∧
  s.deps_map.map Prod.fst = emails.map (fun e => e.email_id) ∧
  fid ∈ lookupDeps s.deps_map xid ∧
  ∀ m ∈ s.queue, m.2 ≠ xid

/-- Trace-level version of `ForeignInv`: additionally, no popped item is the
one with the foreign dependency. -/
def ForeignTraceInv (emails : List EmailInternal) (xid fid : String)
    (t : Trace) : Prop :=
  ForeignInv emails xid fid t.sched ∧
  ∀ p ∈ t.popped, p.1.email_id ≠ xid

/-! ### Concrete inputs used in counterexamples and witnesses -/

/-- Email with id `A`, no dependencies, deadline 1 s. -/
def emailA : EmailInternal := ⟨⟨"A", "SA", "", 1, []⟩, 1000000000⟩

/-- Email with id `B`, depending on `A`, deadline 2 s. -/
def emailB : EmailInternal := ⟨⟨"B", "SB", "", 2, ["A"]⟩, 2000000000⟩

/-- Scheduler state produced by constructing on the batch `[emailA]`. -/
def schedA : DependencyScheduler :=
  { emails0 := [emailA], deps_map := [("A", [])], queue := [(1000000000, "A")] }

/-- Scheduler state produced by constructing on the batch `[emailA, emailB]`. -/
def schedAB : DependencyScheduler :=
  { emails0 := [emailA, emailB]
    deps_map := [("A", []), ("B", ["A"])]
    queue := [(1000000000, "A")] }

/-- Email with id `X`, depending on `Y` (half of a two-cycle). -/
def emailX : EmailInternal := ⟨⟨"X", "SX", "", 1, ["Y"]⟩, 1⟩

/-- Email with id `Y`, depending on `X` (half of a two-cycle). -/
def emailY : EmailInternal := ⟨⟨"Y", "SY", "", 1, ["X"]⟩, 1⟩

/-- Email with id `W`, declaring a dependency on an id that belongs to no
item of any batch it is placed in. -/
def emailW : EmailInternal := ⟨⟨"W", "SW", "", 1, ["missing"]⟩, 1⟩

/-- Scheduler state produced by constructing on the batch
`[emailA, emailW]`. -/
def schedAW : DependencyScheduler :=
  { emails0 := [emailA, emailW]
    deps_map := [("A", []), ("W", ["missing"])]
    queue := [(1000000000, "A")] }

/-- Raw email with a negative fractional deadline offset of `-2 ^ (-31)`
seconds (a value exactly representable by the Python float). -/
def rawNeg : EmailIn := ⟨"n", "Sn", "", -(1 / 2147483648), []⟩

/-- Raw email with deadline offset 1.5 seconds. -/
def rawPos : EmailIn := ⟨"p", "Sp", "", 3 / 2, []⟩

/-! ### Sink lemmas and claims C2, C3, C7, C9 -/

theorem sendLoop_attempts_le (f : ℕ → PostOutcome) (mr : ℤ) :
    ∀ (l : List ℕ) (st : ResponseSink) (a : ℕ),
      a ≤ (sendLoop f mr l st a).attempts := by
  intro l
  induction l with
  | nil => intro st a; exact Nat.le_refl a
  | cons x rest ih =>
    intro st a
    show a ≤ (sendLoop f mr (x :: rest) st a).attempts
    rw [sendLoop]
    cases f x with
    | success => exact Nat.le_succ a
    | otherError => exact Nat.le_succ a
    | httpStatus code =>
      dsimp only
      split
      · exact Nat.le_succ a
      · split
        · exact Nat.le_succ a
        · exact Nat.le_trans (Nat.le_succ a) (ih _ (a + 1))

theorem sendLoop_attempts_cons (f : ℕ → PostOutcome) (mr : ℤ) (x : ℕ)
    (rest : List ℕ) (st : ResponseSink) (a : ℕ) :
    a + 1 ≤ (sendLoop f mr (x :: rest) st a).attempts := by
  rw [sendLoop]
  cases f x with
  | success => exact Nat.le_refl _
  | otherError => exact Nat.le_refl _
  | httpStatus code =>
    dsimp only
    split
    · exact Nat.le_refl _
    · split
      · exact Nat.le_refl _
      · exact sendLoop_attempts_le f mr rest _ (a + 1)

theorem sendLoop_no_raise (f : ℕ → PostOutcome) (mr : ℤ)
    (hf : ∀ n, f n ≠ .otherError) :
    ∀ (l : List ℕ) (st : ResponseSink) (a : ℕ),
      (sendLoop f mr l st a).raised = false := by
  intro l
  induction l with
  | nil => intro st a; rfl
  | cons x rest ih =>
    intro st a
    rw [sendLoop]
    cases hfx : f x with
    | success => rfl
    | otherError => exact absurd hfx (hf x)
    | httpStatus code =>
      dsimp only
      split
      · rfl
      · split
        · rfl
        · exact ih _ (a + 1)

/-- C2 counterexample: the only exception class `send` catches is
`HTTPStatusError`; when the collaborator raises any other error (here a
transport error on the very first attempt, against a sink built with the
default retry cap), the exception escapes `send` instead of being absorbed
into the counters. -/
theorem send_raises_on_transport_error :
    ((ResponseSink.init none).send (fun _ => .otherError)).raised = true := by
  decide

/-- C2 (amended): as long as every collaborator outcome is a normal return
or a raised `HTTPStatusError` (of any status code), `send` returns normally:
no exception escapes its boundary, for every sink state and behaviour. -/
theorem send_no_raise_without_other_error (st : ResponseSink)
    (f : ℕ → PostOutcome) (hf : ∀ n, f n ≠ .otherError) :
    (st.send f).raised = false :=
  sendLoop_no_raise f st.max_retries hf _ st 0

/-- C2 witness: the amended theorem applied to the default sink and an
always-succeeding collaborator. -/
theorem send_no_raise_without_other_error_witness :
    (∀ n : ℕ, (fun _ : ℕ => PostOutcome.success) n ≠ .otherError) ∧
    ((ResponseSink.init none).send (fun _ => .success)).raised = false :=
  ⟨fun _ hh => PostOutcome.noConfusion hh,
   send_no_raise_without_other_error (ResponseSink.init none) (fun _ => .success)
     (fun _ hh => PostOutcome.noConfusion hh)⟩

/-- C3: evaluating `send` at the claim's input: a sink with
`max_retries = 2` against a collaborator always raising HTTP 500 ends with
`success_count = 0`, `retry_count = 1` and `failure_count = 1`, after two
attempts.  The claim (and the repository's own
`test_sink_gives_up_after_max_retries`) expects `retry_count = 2`: the loop
performs only `max_retries - 1` back-off retries because the final attempt
returns through the exhaustion branch before the retry counter is bumped. -/
theorem send_maxretries2_all500_counts :
    (ResponseSink.init (some 2)).send (fun _ => .httpStatus 500) =
      ⟨⟨2, 0, 1, 1⟩, false, 2⟩ := by
  decide

/-- C7: a sink with `max_retries = 5` against a collaborator answering
HTTP 500, then 502, then 200 ends with `success_count = 1`,
`retry_count = 2`, `failure_count = 0`, stopping immediately on the success
(exactly three attempts are made). -/
theorem send_500_502_200_counts :
    (ResponseSink.init (some 5)).send
      (fun n => if n = 1 then .httpStatus 500
                else if n = 2 then .httpStatus 502 else .success) =
      ⟨⟨5, 1, 0, 2⟩, false, 3⟩ := by
  decide

/-- C9: constructing a sink with the explicit argument `max_retries = 0`
falls back to the configured default cap 3 (the constructor's `or` treats
`0` as falsy), so `send` always performs at least one attempt, whatever the
collaborator does. -/
theorem sink_zero_max_retries_uses_default :
    (ResponseSink.init (some 0)).max_retries = settingsMaxRetries ∧
    ∀ f : ℕ → PostOutcome, 1 ≤ ((ResponseSink.init (some 0)).send f).attempts := by
  refine ⟨rfl, fun f => ?_⟩
  exact sendLoop_attempts_cons f 3 1 [2, 3] _ 0

/-! ### Claim C1: `has_work` -/

/-- C1 counterexample: on the one-item batch `[emailA]`, a single `pop_next`
drains the ready queue while `A` has not been marked done; `has_work` is
already `false` although an item of the batch has not yet passed through
`mark_done` (it was popped, and never marked), refuting both the
queue-or-unresolved reading and permanence until the last `mark_done`. -/
theorem has_work_false_with_unmarked_item :
    DependencyScheduler.build [emailA] = .ok schedA ∧
    (runOps schedA [.pop]).popped.map (fun p => p.1.email_id) = ["A"] ∧
    (runOps schedA [.pop]).doneIds = [] ∧
    (runOps schedA [.pop]).sched.has_work = false := by
  decide

/-- C1 (amended): `has_work` returns `true` exactly when the ready queue is
non-empty; items already popped but not yet marked done do not count, so it
can become `false` before every item has passed through `mark_done`. -/
theorem has_work_iff_queue_nonempty (s : DependencyScheduler) :
    s.has_work = true ↔ s.queue ≠ [] := by
  rw [DependencyScheduler.has_work, Bool.not_eq_eq_eq_not]
  simp [List.isEmpty_iff]

/-! ### Claim C8: deadline arithmetic -/

/-- C8 counterexample: for the offset `-2 ^ (-31)` seconds (exactly
representable as a Python float, with an exact float product with `1e9`)
and fetch start 0, the code computes `deadline_ns = 0` (Python `int()`
truncates toward zero) while `t + floor(d * 1e9) = -1`. -/
theorem from_external_negative_offset_not_floor :
    (EmailInternal.from_external rawNeg 0).deadline_ns = 0 ∧
    (0 : ℤ) + ⌊rawNeg.deadline * 1000000000⌋ = -1 ∧
    (EmailInternal.from_external rawNeg 0).deadline_ns ≠
      0 + ⌊rawNeg.deadline * 1000000000⌋ := by
  have h1 : (EmailInternal.from_external rawNeg 0).deadline_ns = 0 := by
    show 0 + pyTrunc (rawNeg.deadline * 1000000000) = 0
    rw [pyTrunc, if_neg (by rw [show rawNeg.deadline = -(1 / 2147483648) from rfl]; norm_num)]
    rw [show rawNeg.deadline = -(1 / 2147483648) from rfl]
    rw [zero_add, Int.ceil_eq_iff]
    norm_num
  have h2 : (0 : ℤ) + ⌊rawNeg.deadline * 1000000000⌋ = -1 := by
    rw [show rawNeg.deadline = -(1 / 2147483648) from rfl]
    rw [zero_add, Int.floor_eq_iff]
    norm_num
  exact ⟨h1, h2, by rw [h1, h2]; decide⟩

/-- C8 (amended): for every nonnegative deadline offset `d` the absolute
deadline is `t + floor(d * 1e9)` nanoseconds (for negative offsets the code
truncates toward zero instead of flooring); in particular offset 1.5 s with
fetch start 1_000_000_000 ns yields 2_500_000_000 ns. -/
theorem from_external_deadline_floor_of_nonneg :
    (∀ (raw : EmailIn) (t : ℤ), 0 ≤ raw.deadline →
      (EmailInternal.from_external raw t).deadline_ns =
        t + ⌊raw.deadline * 1000000000⌋) ∧
    (EmailInternal.from_external rawPos 1000000000).deadline_ns = 2500000000 := by
  constructor
  · intro raw t h
    show t + pyTrunc (raw.deadline * 1000000000) = _
    rw [pyTrunc, if_pos (mul_nonneg h (by norm_num))]
  · show (1000000000 : ℤ) + pyTrunc (rawPos.deadline * 1000000000) = 2500000000
    rw [pyTrunc, if_pos (by rw [show rawPos.deadline = 3 / 2 from rfl]; norm_num)]
    rw [show rawPos.deadline = 3 / 2 from rfl]
    rw [show ((3 / 2 : ℚ) * 1000000000) = ((1500000000 : ℤ) : ℚ) by norm_num]
    rw [Int.floor_intCast]
    norm_num

/-- C8 witness: the amended theorem applied at offset 1.5 s and fetch start
1_000_000_000 ns, with the nonnegativity hypothesis discharged there. -/
theorem from_external_deadline_floor_witness :
    (0 : ℚ) ≤ rawPos.deadline ∧
    (EmailInternal.from_external rawPos 1000000000).deadline_ns =
      1000000000 + ⌊rawPos.deadline * 1000000000⌋ :=
  ⟨by rw [show rawPos.deadline = 3 / 2 from rfl]; norm_num,
   from_external_deadline_floor_of_nonneg.1 rawPos 1000000000
     (by rw [show rawPos.deadline = 3 / 2 from rfl]; norm_num)⟩

/-! ### Kahn-style cycle detection is equivalent to existence of a cycle -/

theorem kahnStep_sublist (dm : DepsMap) (r : List String) :
    (kahnStep dm r).Sublist r :=
  List.filter_sublist r

theorem kahnStep_iter_fix (dm : DepsMap) :
    ∀ (n : ℕ) (r : List String), r.length ≤ n →
      kahnStep dm ((kahnStep dm)^[n] r) = (kahnStep dm)^[n] r := by
  intro n
  induction n with
  | zero =>
    intro r hr
    have : r = [] := List.eq_nil_of_length_eq_zero (Nat.le_zero.mp hr)
    subst this
    simp [kahnStep]
  | succ n ih =>
    intro r hr
    by_cases hfix : kahnStep dm r = r
    · rw [Function.iterate_fixed hfix, hfix]
    · have hlt : (kahnStep dm r).length < r.length := by
        rcases Nat.lt_or_ge (kahnStep dm r).length r.length with hh | hh
        · exact hh
        · exact absurd
            ((kahnStep_sublist dm r).eq_of_length
              (Nat.le_antisymm ((kahnStep_sublist dm r).length_le) hh))
            hfix
      rw [Function.iterate_succ_apply]
      exact ih (kahnStep dm r) (Nat.le_of_lt_succ (Nat.lt_of_lt_of_le hlt hr))

theorem kahnResidual_fix (dm : DepsMap) :
    kahnStep dm (kahnResidual dm) = kahnResidual dm :=
  kahnStep_iter_fix dm dm.length (dm.map Prod.fst) (by rw [List.length_map])

theorem mem_kahnStep {dm : DepsMap} {r : List String} {x : String} :
    x ∈ kahnStep dm r ↔ x ∈ r ∧ ∃ d ∈ lookupDeps dm x, d ∈ r := by
  simp [kahnStep, List.mem_filter, List.any_eq_true]

theorem mem_keys_of_lookup_ne_nil {dm : DepsMap} {x : String}
    (h : lookupDeps dm x ≠ []) : x ∈ dm.map Prod.fst := by
  rw [lookupDeps] at h
  cases hf : dm.find? (fun p => p.1 == x) with
  | none => rw [hf] at h; simp at h
  | some p =>
    have hp : p.1 = x := by simpa using List.find?_some hf
    exact hp ▸ List.mem_map_of_mem Prod.fst (List.mem_of_find?_eq_some hf)

theorem cycle_mem_kahn_iter (dm : DepsMap) :
    ∀ (k : ℕ) (x : String), Relation.TransGen (depRel dm) x x →
      x ∈ (kahnStep dm)^[k] (dm.map Prod.fst) := by
  intro k
  induction k with
  | zero =>
    intro x hx
    obtain ⟨z, hxz, _⟩ := Relation.TransGen.head'_iff.mp hx
    apply mem_keys_of_lookup_ne_nil
    intro hnil
    have hxz' : z ∈ lookupDeps dm x := hxz
    rw [hnil] at hxz'
    exact (List.not_mem_nil z) hxz'
  | succ k ih =>
    intro x hx
    rw [Function.iterate_succ_apply']
    obtain ⟨z, hxz, hzx⟩ := Relation.TransGen.head'_iff.mp hx
    have hzz : Relation.TransGen (depRel dm) z z :=
      Relation.TransGen.trans_right hzx (Relation.TransGen.single hxz)
    exact mem_kahnStep.mpr ⟨ih x hx, z, hxz, ih z hzz⟩

theorem kahnResidual_nonempty_cycle (dm : DepsMap)
    (h : kahnResidual dm ≠ []) :
    ∃ x, Relation.TransGen (depRel dm) x x := by
  classical
  have hprod : ∀ x ∈ kahnResidual dm,
      ∃ d ∈ lookupDeps dm x, d ∈ kahnResidual dm := by
    intro x hx
    rw [← kahnResidual_fix dm] at hx
    exact (mem_kahnStep.mp hx).2
  obtain ⟨g, hg⟩ :
      ∃ g : String → String, ∀ y ∈ kahnResidual dm,
        depRel dm y (g y) ∧ g y ∈ kahnResidual dm := by
    refine ⟨fun y =>
      if hy : ∃ d, d ∈ lookupDeps dm y ∧ d ∈ kahnResidual dm
      then hy.choose else y, ?_⟩
    intro y hy
    obtain ⟨d, hd1, hd2⟩ := hprod y hy
    have hex : ∃ d, d ∈ lookupDeps dm y ∧ d ∈ kahnResidual dm := ⟨d, hd1, hd2⟩
    dsimp only
    rw [dif_pos hex]
    exact ⟨hex.choose_spec.1, hex.choose_spec.2⟩
  have hiter : ∀ (i : ℕ), ∀ y ∈ kahnResidual dm, g^[i] y ∈ kahnResidual dm := by
    intro i
    induction i with
    | zero => intro y hy; simpa using hy
    | succ i ih =>
      intro y hy
      rw [Function.iterate_succ_apply']
      exact (hg _ (ih y hy)).2
  have hchain : ∀ (m : ℕ), ∀ y ∈ kahnResidual dm,
      Relation.TransGen (depRel dm) y (g^[m + 1] y) := by
    intro m
    induction m with
    | zero =>
      intro y hy
      rw [Function.iterate_one]
      exact Relation.TransGen.single (hg y hy).1
    | succ m ih =>
      intro y hy
      rw [Function.iterate_succ_apply']
      exact Relation.TransGen.tail (ih y hy) (hg _ (hiter (m + 1) y hy)).1
  obtain ⟨x0, hx0⟩ := List.exists_mem_of_ne_nil _ h
  have hcard : (kahnResidual dm).toFinset.card <
      (Finset.univ : Finset (Fin ((kahnResidual dm).length + 1))).card := by
    rw [Finset.card_univ, Fintype.card_fin]
    exact Nat.lt_succ_of_le (List.toFinset_card_le _)
  obtain ⟨i, -, j, -, hij, hee⟩ :=
    Finset.exists_ne_map_eq_of_card_lt_of_maps_to hcard
      (f := fun i : Fin ((kahnResidual dm).length + 1) => g^[(i : ℕ)] x0)
      (fun i _ => List.mem_toFinset.mpr (hiter (i : ℕ) x0 hx0))
  -- order the two colliding indices
  rcases Nat.lt_or_ge (i : ℕ) (j : ℕ) with hlt | hge
  · obtain ⟨m, hm⟩ := Nat.exists_eq_add_of_lt hlt
    refine ⟨g^[(i : ℕ)] x0, ?_⟩
    have hcyc := hchain m (g^[(i : ℕ)] x0) (hiter (i : ℕ) x0 hx0)
    rw [← Function.iterate_add_apply, Nat.add_comm (m + 1) (i : ℕ), ← Nat.add_assoc,
      ← hm, ← hee] at hcyc
    exact hcyc
  · have hlt' : (j : ℕ) < (i : ℕ) :=
      Nat.lt_of_le_of_ne hge (fun hh => hij (Fin.ext hh.symm))
    obtain ⟨m, hm⟩ := Nat.exists_eq_add_of_lt hlt'
    refine ⟨g^[(j : ℕ)] x0, ?_⟩
    have hcyc := hchain m (g^[(j : ℕ)] x0) (hiter (j : ℕ) x0 hx0)
    rw [← Function.iterate_add_apply, Nat.add_comm (m + 1) (j : ℕ), ← Nat.add_assoc,
      ← hm, hee] at hcyc
    exact hcyc

theorem hasCycleB_iff (dm : DepsMap) :
    hasCycleB dm = true ↔ ∃ x, Relation.TransGen (depRel dm) x x := by
  constructor
  · intro h
    apply kahnResidual_nonempty_cycle
    intro hnil
    rw [hasCycleB, hnil] at h
    simp at h
  · rintro ⟨x, hx⟩
    have hmem : x ∈ kahnResidual dm := cycle_mem_kahn_iter dm dm.length x hx
    rw [hasCycleB]
    simp [List.isEmpty_iff]
    exact List.ne_nil_of_mem hmem

theorem depRel_iff_declared (emails : List EmailInternal)
    (h : (emails.map (fun e => e.email_id)).Nodup) (a b : String) :
    depRel (buildDepsMap emails) a b ↔ declaredDep emails a b := by
  induction emails with
  | nil => simp [depRel, declaredDep, lookupDeps, buildDepsMap]
  | cons e rest ih =>
    rw [List.map_cons, List.nodup_cons] at h
    obtain ⟨hhead, htail⟩ := h
    by_cases he : e.email_id = a
    · have hl : depRel (buildDepsMap (e :: rest)) a b ↔ b ∈ e.dependencies := by
        rw [depRel, lookupDeps, buildDepsMap, List.map_cons,
          List.find?_cons_of_pos _ (by simpa using he)]
        simp [List.mem_dedup]
      rw [hl, declaredDep]
      constructor
      · intro hb
        exact ⟨e, List.mem_cons_self e rest, he, hb⟩
      · rintro ⟨e', he', hid, hb⟩
        rcases List.mem_cons.mp he' with rfl | hmem
        · exact hb
        · exact absurd (by rw [he, ← hid]; exact List.mem_map_of_mem _ hmem) hhead
    · have hl : depRel (buildDepsMap (e :: rest)) a b ↔
          depRel (buildDepsMap rest) a b := by
        rw [depRel, depRel, lookupDeps, lookupDeps, buildDepsMap, List.map_cons,
          List.find?_cons_of_neg _ (by simpa using he)]
        rfl
      rw [hl, ih htail, declaredDep, declaredDep]
      constructor
      · rintro ⟨e', he', hid, hb⟩
        exact ⟨e', List.mem_cons_of_mem e he', hid, hb⟩
      · rintro ⟨e', he', hid, hb⟩
        rcases List.mem_cons.mp he' with rfl | hmem
        · exact absurd hid he
        · exact ⟨e', hmem, hid, hb⟩

theorem hasCycleB_iff_hasDepCycle (emails : List EmailInternal)
    (h : (emails.map (fun e => e.email_id)).Nodup) :
    hasCycleB (buildDepsMap emails) = true ↔ hasDepCycle emails := by
  rw [hasCycleB_iff]
  constructor
  · rintro ⟨x, hx⟩
    exact ⟨x, Relation.TransGen.mono
      (fun a b hab => (depRel_iff_declared emails h a b).mp hab) hx⟩
  · rintro ⟨x, hx⟩
    exact ⟨x, Relation.TransGen.mono
      (fun a b hab => (depRel_iff_declared emails h a b).mpr hab) hx⟩

/-- C4: for a batch with unique ids, construction succeeds exactly when the
declared dependency relation is acyclic; any dependency cycle makes
construction fail with the cycle error before the ready queue exists, and no
scheduler value is produced. -/
theorem build_succeeds_iff_acyclic (emails : List EmailInternal)
    (h : (emails.map (fun e => e.email_id)).Nodup) :
    (¬ hasDepCycle emails →
      DependencyScheduler.build emails =
        .ok { emails0 := emails, deps_map := buildDepsMap emails,
              queue := initQueue emails (buildDepsMap emails) }) ∧
    (hasDepCycle emails →
      DependencyScheduler.build emails = .error "Dependency cycle detected") := by
  constructor
  · intro hnc
    rw [DependencyScheduler.build,
      if_neg (fun hh => hnc ((hasCycleB_iff_hasDepCycle emails h).mp hh))]
  · intro hc
    rw [DependencyScheduler.build,
      if_pos ((hasCycleB_iff_hasDepCycle emails h).mpr hc)]

/-- C4 witness: the theorem applied to the concrete acyclic batch
`[emailA, emailB]`, its unique-ids hypothesis discharged by computation. -/
theorem build_succeeds_iff_acyclic_witness :
    (([emailA, emailB].map (fun e => e.email_id)).Nodup) ∧
    ((¬ hasDepCycle [emailA, emailB] →
      DependencyScheduler.build [emailA, emailB] =
        .ok { emails0 := [emailA, emailB],
              deps_map := buildDepsMap [emailA, emailB],
              queue := initQueue [emailA, emailB] (buildDepsMap [emailA, emailB]) }) ∧
     (hasDepCycle [emailA, emailB] →
      DependencyScheduler.build [emailA, emailB] = .error "Dependency cycle detected")) :=
  ⟨by decide, build_succeeds_iff_acyclic [emailA, emailB] (by decide)⟩

/-! ### Heap-order and association-list lemmas -/

theorem entryLe_refl (a : ℤ × String) : entryLe a a :=
  Or.inr ⟨rfl, le_refl _⟩

theorem entryLe_trans {a b c : ℤ × String} (hab : entryLe a b) (hbc : entryLe b c) :
    entryLe a c := by
  rcases hab with h1 | ⟨h1, h1'⟩ <;> rcases hbc with h2 | ⟨h2, h2'⟩
  · exact Or.inl (lt_trans h1 h2)
  · exact Or.inl (h2 ▸ h1)
  · exact Or.inl (h1 ▸ h2)
  · exact Or.inr ⟨h1.trans h2, le_trans h1' h2'⟩

theorem entryLe_total (a b : ℤ × String) : entryLe a b ∨ entryLe b a := by
  rcases lt_trichotomy a.1 b.1 with h | h | h
  · exact Or.inl (Or.inl h)
  · rcases le_total a.2 b.2 with h' | h'
    · exact Or.inl (Or.inr ⟨h, h'⟩)
    · exact Or.inr (Or.inr ⟨h.symm, h'⟩)
  · exact Or.inr (Or.inl h)

theorem heapMin_eq_none_iff (q : List (ℤ × String)) :
    heapMin q = none ↔ q = [] := by
  cases q with
  | nil => simp [heapMin]
  | cons x xs =>
    simp only [heapMin]
    cases heapMin xs with
    | none => simp
    | some m =>
      dsimp only
      split <;> simp

theorem find?_cons_eq {α : Type} (p : α → Bool) (a : α) (l : List α) :
    (a :: l).find? p = if p a then some a else l.find? p := by
  by_cases h : p a = true
  · rw [List.find?_cons_of_pos _ h, if_pos h]
  · rw [List.find?_cons_of_neg _ h, if_neg h]

theorem heapMin_mem {q : List (ℤ × String)} {m : ℤ × String}
    (h : heapMin q = some m) : m ∈ q := by
  induction q generalizing m with
  | nil => simp [heapMin] at h
  | cons x xs ih =>
    rw [heapMin] at h
    cases hxs : heapMin xs with
    | none =>
      rw [hxs] at h
      dsimp only at h
      injection h with h2
      subst h2
      exact List.mem_cons_self x xs
    | some m' =>
      rw [hxs] at h
      dsimp only at h
      split at h
      · injection h with h2
        subst h2
        exact List.mem_cons_self x xs
      · injection h with h2
        subst h2
        exact List.mem_cons_of_mem x (ih hxs)

theorem heapMin_le {q : List (ℤ × String)} {m : ℤ × String}
    (h : heapMin q = some m) : ∀ y ∈ q, entryLe m y := by
  induction q generalizing m with
  | nil => simp [heapMin] at h
  | cons x xs ih =>
    rw [heapMin] at h
    cases hxs : heapMin xs with
    | none =>
      rw [hxs] at h
      dsimp only at h
      injection h with h2
      subst h2
      have hnil : xs = [] := (heapMin_eq_none_iff xs).mp hxs
      subst hnil
      intro y hy
      rw [List.mem_singleton.mp hy]
      exact entryLe_refl _
    | some m' =>
      rw [hxs] at h
      dsimp only at h
      split at h
      · next hle =>
        injection h with h2
        subst h2
        intro y hy
        rcases List.mem_cons.mp hy with rfl | hmem
        · exact entryLe_refl _
        · exact entryLe_trans hle (ih hxs y hmem)
      · next hnle =>
        injection h with h2
        subst h2
        intro y hy
        rcases List.mem_cons.mp hy with rfl | hmem
        · rcases entryLe_total y m' with hh | hh
          · exact absurd hh hnle
          · exact hh
        · exact ih hxs y hmem

theorem updateDeps_keys (m : DepsMap) (x : String) (v : List String) :
    (updateDeps m x v).map Prod.fst = m.map Prod.fst := by
  induction m with
  | nil => rfl
  | cons p rest ih =>
    rw [updateDeps, List.map_cons, List.map_cons, List.map_cons]
    rw [updateDeps] at ih
    by_cases hp : (p.1 == x) = true
    · rw [if_pos hp, ih]
    · rw [if_neg hp, ih]

theorem lookupDeps_updateDeps_self {m : DepsMap} {x : String}
    (hx : x ∈ m.map Prod.fst) (v : List String) :
    lookupDeps (updateDeps m x v) x = v := by
  induction m with
  | nil => simp at hx
  | cons p rest ih =>
    rw [List.map_cons] at hx
    rw [updateDeps, List.map_cons]
    by_cases hp : (p.1 == x) = true
    · rw [if_pos hp]
      simp only [lookupDeps, find?_cons_eq]
      simp [hp]
    · rw [if_neg hp]
      rcases List.mem_cons.mp hx with rfl | hmem
      · exact absurd (by simp) hp
      · simp only [lookupDeps, find?_cons_eq]
        rw [if_neg (by simpa using hp)]
        exact ih hmem

theorem lookupDeps_updateDeps_other {m : DepsMap} {x y : String}
    (hxy : y ≠ x) (v : List String) :
    lookupDeps (updateDeps m x v) y = lookupDeps m y := by
  induction m with
  | nil => rfl
  | cons p rest ih =>
    rw [updateDeps, List.map_cons]
    by_cases hp : (p.1 == x) = true
    · have hpy : ¬ ((p.1 == y) = true) := by
        simp only [beq_iff_eq] at hp ⊢
        rw [hp]
        exact fun hh => hxy hh.symm
      rw [if_pos hp]
      simp only [lookupDeps, find?_cons_eq]
      rw [if_neg (by simpa using hpy), if_neg hpy]
      exact ih
    · rw [if_neg hp]
      simp only [lookupDeps, find?_cons_eq]
      by_cases hpy : (p.1 == y) = true
      · rw [if_pos hpy, if_pos hpy]
      · rw [if_neg hpy, if_neg hpy]
        exact ih

theorem lookup_buildDepsMap (emails : List EmailInternal) (x : String) :
    lookupDeps (buildDepsMap emails) x =
      ((emails.find? (fun e => e.email_id == x)).map
        (fun e => e.dependencies.dedup)).getD [] := by
  induction emails with
  | nil => rfl
  | cons e rest ih =>
    rw [buildDepsMap, List.map_cons]
    simp only [lookupDeps, find?_cons_eq]
    by_cases he : (e.email_id == x) = true
    · rw [if_pos (by simpa using he), if_pos he]
      rfl
    · rw [if_neg (by simpa using he), if_neg he]
      exact ih

theorem buildDepsMap_keys (emails : List EmailInternal) :
    (buildDepsMap emails).map Prod.fst = emails.map (fun e => e.email_id) := by
  rw [buildDepsMap, List.map_map]
  rfl

/-! ### Unmet-dependency bookkeeping lemmas -/

theorem unmet_nil (emails : List EmailInternal) (x : String) :
    unmetSpec emails [] x = lookupDeps (buildDepsMap emails) x := by
  rw [unmetSpec]
  apply List.filter_eq_self.mpr
  intro a _
  rfl

theorem unmet_cons (emails : List EmailInternal) (done : List String)
    (p x : String) :
    unmetSpec emails (p :: done) x =
      (unmetSpec emails done x).filter (fun d => d != p) := by
  rw [unmetSpec, unmetSpec, List.filter_filter]
  apply List.filter_congr
  intro d _
  by_cases h1 : d = p <;> by_cases h2 : d ∈ done <;>
    simp [List.contains_cons, h1, h2, bne]

theorem email_id_of_find? {emails : List EmailInternal} {eid : String}
    {e : EmailInternal}
    (h : emails.find? (fun e' => e'.email_id == eid) = some e) :
    e.email_id = eid := by
  simpa using List.find?_some h

theorem find?_eq_some_of_nodup {emails : List EmailInternal}
    (hids : (emails.map (fun e => e.email_id)).Nodup) {e : EmailInternal}
    (he : e ∈ emails) :
    emails.find? (fun e' => e'.email_id == e.email_id) = some e := by
  induction emails with
  | nil => simp at he
  | cons f rest ih =>
    rw [List.map_cons, List.nodup_cons] at hids
    rcases List.mem_cons.mp he with rfl | hmem
    · exact List.find?_cons_of_pos _ (by simp)
    · have hne : (f.email_id == e.email_id) = false := by
        rw [beq_eq_false_iff_ne]
        intro hh
        exact hids.1 (hh ▸ List.mem_map_of_mem (fun e' => e'.email_id) hmem)
      rw [List.find?_cons_of_neg _ (by simp [hne])]
      exact ih hids.2 hmem

theorem head?_mem {α : Type} {l : List α} {a : α} (h : l.head? = some a) :
    a ∈ l := by
  cases l with
  | nil => simp at h
  | cons x xs =>
    injection h with h2
    exact h2 ▸ List.mem_cons_self x xs

theorem mem_initQueue_aux (dm : DepsMap) :
    ∀ (l : List EmailInternal) (acc : List (ℤ × String)) (m : ℤ × String),
      m ∈ l.foldl
        (fun q e => if lookupDeps dm e.email_id = []
                    then heappush q (e.deadline_ns, e.email_id) else q) acc ↔
      m ∈ acc ∨ ∃ e ∈ l, lookupDeps dm e.email_id = [] ∧
        m = (e.deadline_ns, e.email_id) := by
  intro l
  induction l with
  | nil => intro acc m; simp
  | cons e rest ih =>
    intro acc m
    rw [List.foldl_cons]
    by_cases he : lookupDeps dm e.email_id = []
    · rw [if_pos he, ih]
      simp only [heappush, List.mem_cons, List.mem_cons]
      constructor
      · rintro ((rfl | hacc) | ⟨e', he', hl', rfl⟩)
        · exact Or.inr ⟨e, Or.inl rfl, he, rfl⟩
        · exact Or.inl hacc
        · exact Or.inr ⟨e', Or.inr he', hl', rfl⟩
      · rintro (hacc | ⟨e', (rfl | he'), hl', rfl⟩)
        · exact Or.inl (Or.inr hacc)
        · exact Or.inl (Or.inl rfl)
        · exact Or.inr ⟨e', he', hl', rfl⟩
    · rw [if_neg he, ih]
      constructor
      · rintro (hacc | ⟨e', he', hl', rfl⟩)
        · exact Or.inl hacc
        · exact Or.inr ⟨e', List.mem_cons_of_mem e he', hl', rfl⟩
      · rintro (hacc | ⟨e', he', hl', rfl⟩)
        · exact Or.inl hacc
        · rcases List.mem_cons.mp he' with rfl | hmem
          · exact absurd hl' he
          · exact Or.inr ⟨e', hmem, hl', rfl⟩

theorem mem_initQueue {emails : List EmailInternal} {dm : DepsMap}
    {m : ℤ × String} :
    m ∈ initQueue emails dm ↔
      ∃ e ∈ emails, lookupDeps dm e.email_id = [] ∧
        m = (e.deadline_ns, e.email_id) := by
  rw [initQueue, mem_initQueue_aux]
  simp

theorem inv_build {emails : List EmailInternal} {s0 : DependencyScheduler}
    (hids : (emails.map (fun e => e.email_id)).Nodup)
    (hb : DependencyScheduler.build emails = .ok s0) :
    Inv emails [] s0 := by
  rw [DependencyScheduler.build] at hb
  split at hb
  · exact absurd hb (by simp)
  · injection hb with hb2
    subst hb2
    refine ⟨rfl, buildDepsMap_keys emails, fun x => (unmet_nil emails x).symm, ?_⟩
    intro m hm
    rw [mem_initQueue] at hm
    obtain ⟨e, he, hl, rfl⟩ := hm
    constructor
    · exact ⟨e, find?_eq_some_of_nodup hids he, rfl⟩
    · rw [unmet_nil]
      exact hl

/-! ### Invariant preservation for `mark_done` -/

theorem markChild_eq (pid : String) (s : DependencyScheduler) (c : String) :
    markChild pid s c =
      if (lookupDeps s.deps_map c).filter (fun d => d != pid) = [] then
        match s.findEmail c with
        | some ce =>
          { s with
            deps_map :=
              updateDeps s.deps_map c
                ((lookupDeps s.deps_map c).filter (fun d => d != pid)),
            queue := heappush s.queue (ce.deadline_ns, c) }
        | none =>
          { s with
            deps_map :=
              updateDeps s.deps_map c
                ((lookupDeps s.deps_map c).filter (fun d => d != pid)) }
      else
        { s with
          deps_map :=
            updateDeps s.deps_map c
              ((lookupDeps s.deps_map c).filter (fun d => d != pid)) } :=
  rfl

theorem mark_fold_inv (emails : List EmailInternal) (pid : String)
    (done : List String) :
    ∀ (rest : List String) (s : DependencyScheduler),
      rest.Nodup →
      (∀ c ∈ rest, c ∈ emails.map (fun e => e.email_id)) →
      s.emails0 = emails →
      s.deps_map.map Prod.fst = emails.map (fun e => e.email_id) →
      (∀ x, lookupDeps s.deps_map x =
        if rest.contains x then unmetSpec emails done x
        else unmetSpec emails (pid :: done) x) →
      (∀ m ∈ s.queue,
        (∃ e, s.findEmail m.2 = some e ∧ m.1 = e.deadline_ns) ∧
        unmetSpec emails (pid :: done) m.2 = []) →
      Inv emails (pid :: done) (rest.foldl (markChild pid) s) := by
  intro rest
  induction rest with
  | nil =>
    intro s _ _ h1 h2 h3 h4
    refine ⟨h1, h2, ?_, h4⟩
    intro x
    have hx := h3 x
    rwa [if_neg (by simp)] at hx
  | cons c rest' ih =>
    intro s hnd hkeys h1 h2 h3 h4
    rw [List.foldl_cons]
    rw [List.nodup_cons] at hnd
    have hck : c ∈ s.deps_map.map Prod.fst := by
      rw [h2]
      exact hkeys c (List.mem_cons_self c rest')
    have hlc : lookupDeps s.deps_map c = unmetSpec emails done c := by
      have hc := h3 c
      rwa [if_pos (by simp [List.contains_cons])] at hc
    have hdeps : (lookupDeps s.deps_map c).filter (fun d => d != pid) =
        unmetSpec emails (pid :: done) c := by
      rw [hlc, ← unmet_cons]
    have hkeys' : ∀ c' ∈ rest', c' ∈ emails.map (fun e => e.email_id) :=
      fun c' hc' => hkeys c' (List.mem_cons_of_mem c hc')
    have hlook' : ∀ x, lookupDeps
        (updateDeps s.deps_map c
          ((lookupDeps s.deps_map c).filter (fun d => d != pid))) x =
        if rest'.contains x then unmetSpec emails done x
        else unmetSpec emails (pid :: done) x := by
      intro x
      by_cases hxc : x = c
      · subst hxc
        rw [lookupDeps_updateDeps_self hck, hdeps,
          if_neg (by simpa using hnd.1)]
      · rw [lookupDeps_updateDeps_other hxc, h3 x]
        have hcc : (c :: rest').contains x = rest'.contains x := by
          simp [List.contains_cons, hxc]
        rw [hcc]
    have hkeys2 : (updateDeps s.deps_map c
        ((lookupDeps s.deps_map c).filter (fun d => d != pid))).map Prod.fst =
        emails.map (fun e => e.email_id) := by
      rw [updateDeps_keys]
      exact h2
    rw [markChild_eq]
    by_cases hd : (lookupDeps s.deps_map c).filter (fun d => d != pid) = []
    · rw [if_pos hd]
      cases hfe : s.findEmail c with
      | some ce =>
        refine ih _ hnd.2 hkeys' ?_ ?_ ?_ ?_
        · exact h1
        · exact hkeys2
        · exact hlook'
        · intro m hm
          rcases List.mem_cons.mp hm with rfl | hmem
          · refine ⟨⟨ce, hfe, rfl⟩, ?_⟩
            rw [← hdeps]
            exact hd
          · exact h4 m hmem
      | none =>
        refine ih _ hnd.2 hkeys' ?_ ?_ ?_ ?_
        · exact h1
        · exact hkeys2
        · exact hlook'
        · exact h4
    · rw [if_neg hd]
      refine ih _ hnd.2 hkeys' ?_ ?_ ?_ ?_
      · exact h1
      · exact hkeys2
      · exact hlook'
      · exact h4

theorem mark_done_inv {emails : List EmailInternal} {done : List String}
    {s : DependencyScheduler} (pid : String)
    (hids : (emails.map (fun e => e.email_id)).Nodup)
    (hinv : Inv emails done s) :
    Inv emails (pid :: done) (s.mark_done pid) := by
  obtain ⟨h1, h2, h3, h4⟩ := hinv
  rw [DependencyScheduler.mark_done, h1]
  have hsub : (dependentsOf emails pid).Sublist
      (emails.map (fun e => e.email_id)) := by
    rw [dependentsOf]
    exact List.Sublist.map _ (List.filter_sublist emails)
  apply mark_fold_inv emails pid done (dependentsOf emails pid) s
    (hids.sublist hsub) (fun c hc => hsub.subset hc) h1 h2
  · intro x
    by_cases hx : (dependentsOf emails pid).contains x = true
    · rw [if_pos hx]
      exact h3 x
    · rw [if_neg hx]
      have hnotdep : pid ∉ lookupDeps (buildDepsMap emails) x := by
        intro hpid
        apply hx
        rw [lookup_buildDepsMap] at hpid
        cases hfx : emails.find? (fun e' => e'.email_id == x) with
        | none => rw [hfx] at hpid; simp at hpid
        | some e =>
          rw [hfx] at hpid
          have hex : e ∈ emails := List.mem_of_find?_eq_some hfx
          have hid : e.email_id = x := email_id_of_find? hfx
          have hdep : pid ∈ e.dependencies :=
            List.mem_dedup.mp (by simpa using hpid)
          have : x ∈ dependentsOf emails pid := by
            rw [dependentsOf, ← hid]
            exact List.mem_map_of_mem _
              (List.mem_filter.mpr ⟨hex, by simpa using hdep⟩)
          simpa using this
      rw [h3 x, unmet_cons]
      symm
      apply List.filter_eq_self.mpr
      intro d hdm
      have hdl : d ∈ lookupDeps (buildDepsMap emails) x :=
        List.mem_of_mem_filter hdm
      have : d ≠ pid := fun hh => hnotdep (hh ▸ hdl)
      simpa [bne] using this
  · intro m hm
    obtain ⟨hcorr, hum⟩ := h4 m hm
    refine ⟨hcorr, ?_⟩
    rw [unmet_cons, hum]
    rfl

/-! ### Invariant preservation for pops -/

theorem heappop_eq_some {q : List (ℤ × String)} {m : ℤ × String}
    {q' : List (ℤ × String)} (h : heappop q = some (m, q')) :
    heapMin q = some m ∧ q' = q.erase m := by
  rw [heappop] at h
  cases hmin : heapMin q with
  | none => rw [hmin] at h; simp at h
  | some m0 =>
    rw [hmin] at h
    dsimp only at h
    injection h with h2
    injection h2 with ha hb
    subst ha
    exact ⟨rfl, hb.symm⟩

theorem get_ready_batch_inv {emails : List EmailInternal} {done : List String}
    {s : DependencyScheduler} (hinv : Inv emails done s) (n : ℕ) :
    Inv emails done (s.get_ready_batch n).2 ∧
    ∀ e ∈ (s.get_ready_batch n).1, ∀ d ∈ e.dependencies, d ∈ done := by
  induction n generalizing s with
  | zero => exact ⟨hinv, by simp [DependencyScheduler.get_ready_batch]⟩
  | succ n ih =>
    cases hp : heappop s.queue with
    | none =>
      simp only [DependencyScheduler.get_ready_batch, hp]
      exact ⟨hinv, by simp⟩
    | some mq =>
      obtain ⟨m, q'⟩ := mq
      obtain ⟨hmin, hq'⟩ := heappop_eq_some hp
      have hm_mem : m ∈ s.queue := heapMin_mem hmin
      have hinv' : Inv emails done { s with queue := q' } := by
        obtain ⟨h1, h2, h3, h4⟩ := hinv
        refine ⟨h1, h2, h3, ?_⟩
        intro mm hmm
        apply h4
        rw [hq'] at hmm
        exact List.mem_of_mem_erase hmm
      obtain ⟨ihInv, ihBatch⟩ := ih hinv'
      simp only [DependencyScheduler.get_ready_batch, hp]
      refine ⟨ihInv, ?_⟩
      intro e he d hd
      cases hfe : s.findEmail m.2 with
      | none =>
        rw [hfe] at he
        exact ihBatch e he d hd
      | some e0 =>
        rw [hfe] at he
        simp only [Option.elim] at he
        rcases List.mem_cons.mp he with rfl | hmem
        · obtain ⟨⟨e', hfe', hdl⟩, hum⟩ := hinv.2.2.2 m hm_mem
          rw [hfe] at hfe'
          injection hfe' with he'
          subst he'
          have hfind : emails.find? (fun e' => e'.email_id == m.2) = some e := by
            rw [← hinv.1]
            exact hfe
          have hl0 : lookupDeps (buildDepsMap emails) m.2 =
              e.dependencies.dedup := by
            rw [lookup_buildDepsMap, hfind]
            rfl
          rw [unmetSpec, hl0] at hum
          have hall := List.filter_eq_nil_iff.mp hum d (List.mem_dedup.mpr hd)
          simpa using hall
        · exact ihBatch e hmem d hd

theorem stepOp_traceInv {emails : List EmailInternal} {t : Trace}
    (hids : (emails.map (fun e => e.email_id)).Nodup)
    (ht : TraceInv emails t) (op : Op) : TraceInv emails (stepOp t op) := by
  obtain ⟨hinv, hpop⟩ := ht
  cases op with
  | pop =>
    obtain ⟨ihInv, ihBatch⟩ := get_ready_batch_inv hinv 1
    refine ⟨ihInv, ?_⟩
    intro p hp
    simp only [stepOp, DependencyScheduler.pop_next, List.mem_append] at hp
    rcases hp with hnew | hold
    · cases hh : (t.sched.get_ready_batch 1).1.head? with
      | none => rw [hh] at hnew; simp at hnew
      | some e =>
        rw [hh] at hnew
        simp only [Option.elim, List.mem_singleton] at hnew
        subst hnew
        exact ihBatch e (head?_mem hh)
    · exact hpop p hold
  | batch n =>
    obtain ⟨ihInv, ihBatch⟩ := get_ready_batch_inv hinv n
    refine ⟨ihInv, ?_⟩
    intro p hp
    simp only [stepOp, List.mem_append, List.mem_map] at hp
    rcases hp with ⟨e, he, rfl⟩ | hold
    · exact ihBatch e he
    · exact hpop p hold
  | done i =>
    exact ⟨mark_done_inv i hids hinv, hpop⟩

theorem foldl_stepOp_traceInv {emails : List EmailInternal}
    (hids : (emails.map (fun e => e.email_id)).Nodup) :
    ∀ (ops : List Op) (t : Trace), TraceInv emails t →
      TraceInv emails (ops.foldl stepOp t) := by
  intro ops
  induction ops with
  | nil => intro t ht; exact ht
  | cons op rest ih =>
    intro t ht
    rw [List.foldl_cons]
    exact ih _ (stepOp_traceInv hids ht op)

theorem runOps_traceInv {emails : List EmailInternal} {s0 : DependencyScheduler}
    (ops : List Op)
    (hids : (emails.map (fun e => e.email_id)).Nodup)
    (hb : DependencyScheduler.build emails = .ok s0) :
    TraceInv emails (runOps s0 ops) := by
  rw [runOps]
  exact foldl_stepOp_traceInv hids ops _ ⟨inv_build hids hb, by simp⟩

/-- C5: over every operation sequence against a scheduler built from a
batch with unique ids (in particular sequences marking each id done at most
once), every popped item had all of its declared dependencies already
marked done at the moment it was popped, and every entry of the ready
queue has an empty unmet-dependency set. -/
theorem popped_deps_marked_done (emails : List EmailInternal) (ops : List Op)
    (s0 : DependencyScheduler)
    (hids : (emails.map (fun e => e.email_id)).Nodup)
    (hb : DependencyScheduler.build emails = .ok s0) :
    (∀ p ∈ (runOps s0 ops).popped, ∀ d ∈ p.1.dependencies, d ∈ p.2) ∧
    (∀ m ∈ (runOps s0 ops).sched.queue,
      lookupDeps (runOps s0 ops).sched.deps_map m.2 = []) := by
  obtain ⟨⟨h1, h2, h3, h4⟩, hpop⟩ := runOps_traceInv ops hids hb
  refine ⟨hpop, ?_⟩
  intro m hm
  rw [h3 m.2]
  exact (h4 m hm).2

/-- C5 witness: the theorem applied to the batch `[emailA, emailB]` and the
operation sequence pop, mark `A` done, pop. -/
theorem popped_deps_marked_done_witness :
    (([emailA, emailB].map (fun e => e.email_id)).Nodup) ∧
    DependencyScheduler.build [emailA, emailB] = .ok schedAB ∧
    ((∀ p ∈ (runOps schedAB [.pop, .done "A", .pop]).popped,
        ∀ d ∈ p.1.dependencies, d ∈ p.2) ∧
     (∀ m ∈ (runOps schedAB [.pop, .done "A", .pop]).sched.queue,
        lookupDeps (runOps schedAB [.pop, .done "A", .pop]).sched.deps_map m.2 = [])) :=
  ⟨by decide, by decide,
   popped_deps_marked_done [emailA, emailB] [.pop, .done "A", .pop] schedAB
     (by decide) (by decide)⟩

theorem pop_next_min_of_inv {emails : List EmailInternal} {done : List String}
    {s : DependencyScheduler} (hinv : Inv emails done s) :
    (s.queue = [] → s.pop_next = (none, s)) ∧
    (s.queue ≠ [] → ∃ e : EmailInternal,
      (s.pop_next).1 = some e ∧
      (e.deadline_ns, e.email_id) ∈ s.queue ∧
      (s.pop_next).2.queue = s.queue.erase (e.deadline_ns, e.email_id) ∧
      ∀ m ∈ s.queue, entryLe (e.deadline_ns, e.email_id) m) := by
  constructor
  · intro hq
    simp [DependencyScheduler.pop_next, DependencyScheduler.get_ready_batch,
      hq, heappop, heapMin]
  · intro hq
    cases hmin : heapMin s.queue with
    | none => exact absurd ((heapMin_eq_none_iff s.queue).mp hmin) hq
    | some m =>
      have hpop : heappop s.queue = some (m, s.queue.erase m) := by
        rw [heappop, hmin]
      obtain ⟨⟨e, hfe, hdl⟩, -⟩ := hinv.2.2.2 m (heapMin_mem hmin)
      have hid : e.email_id = m.2 := email_id_of_find? hfe
      have hm_eq : m = (e.deadline_ns, e.email_id) := by
        obtain ⟨md, mi⟩ := m
        simp only at hdl hid
        rw [hdl, hid]
      refine ⟨e, ?_, ?_, ?_, ?_⟩
      · simp only [DependencyScheduler.pop_next,
          DependencyScheduler.get_ready_batch, hpop, hfe]
        rfl
      · exact hm_eq ▸ heapMin_mem hmin
      · simp only [DependencyScheduler.pop_next,
          DependencyScheduler.get_ready_batch, hpop, hfe]
        rw [hm_eq]
      · intro mm hmm
        exact hm_eq ▸ heapMin_le hmin mm hmm

/-- C6: in every reachable state of a scheduler built from a batch with
unique ids, if the ready queue is non-empty then `pop_next` pops exactly
the ready item whose `(deadline_ns, email_id)` pair is least — smallest
absolute deadline, ties broken by id — removing that entry from the queue,
which makes the result deterministic; on an empty ready queue it returns
`none` and leaves the state unchanged. -/
theorem pop_next_returns_min_deadline (emails : List EmailInternal)
    (ops : List Op) (s0 : DependencyScheduler)
    (hids : (emails.map (fun e => e.email_id)).Nodup)
    (hb : DependencyScheduler.build emails = .ok s0) :
    ((runOps s0 ops).sched.queue = [] →
      (runOps s0 ops).sched.pop_next = (none, (runOps s0 ops).sched)) ∧
    ((runOps s0 ops).sched.queue ≠ [] → ∃ e : EmailInternal,
      ((runOps s0 ops).sched.pop_next).1 = some e ∧
      (e.deadline_ns, e.email_id) ∈ (runOps s0 ops).sched.queue ∧
      ((runOps s0 ops).sched.pop_next).2.queue =
        (runOps s0 ops).sched.queue.erase (e.deadline_ns, e.email_id) ∧
      ∀ m ∈ (runOps s0 ops).sched.queue,
        entryLe (e.deadline_ns, e.email_id) m) :=
  pop_next_min_of_inv (runOps_traceInv ops hids hb).1

/-- C6 witness: the theorem applied to the freshly built scheduler on
`[emailA, emailB]` (no operations yet). -/
theorem pop_next_returns_min_deadline_witness :
    (([emailA, emailB].map (fun e => e.email_id)).Nodup) ∧
    DependencyScheduler.build [emailA, emailB] = .ok schedAB ∧
    (((runOps schedAB []).sched.queue = [] →
      (runOps schedAB []).sched.pop_next = (none, (runOps schedAB []).sched)) ∧
    ((runOps schedAB []).sched.queue ≠ [] → ∃ e : EmailInternal,
      ((runOps schedAB []).sched.pop_next).1 = some e ∧
      (e.deadline_ns, e.email_id) ∈ (runOps schedAB []).sched.queue ∧
      ((runOps schedAB []).sched.pop_next).2.queue =
        (runOps schedAB []).sched.queue.erase (e.deadline_ns, e.email_id) ∧
      ∀ m ∈ (runOps schedAB []).sched.queue,
        entryLe (e.deadline_ns, e.email_id) m)) :=
  ⟨by decide, by decide,
   pop_next_returns_min_deadline [emailA, emailB] [] schedAB
     (by decide) (by decide)⟩

/-! ### Claim C10: foreign dependencies -/

theorem markChild_foreignInv {emails : List EmailInternal} {xid fid : String}
    {s : DependencyScheduler} {pid c : String} (hpf : pid ≠ fid)
    (hJ : ForeignInv emails xid fid s) :
    ForeignInv emails xid fid (markChild pid s c) := by
  obtain ⟨h1, h2, h3, h4⟩ := hJ
  have hbne : (fid != pid) = true := by
    simpa [bne] using (Ne.symm hpf)
  have hupd_keys : (updateDeps s.deps_map c
      ((lookupDeps s.deps_map c).filter (fun d => d != pid))).map Prod.fst =
      emails.map (fun e => e.email_id) := by
    rw [updateDeps_keys]
    exact h2
  have hlook : fid ∈ lookupDeps (updateDeps s.deps_map c
      ((lookupDeps s.deps_map c).filter (fun d => d != pid))) xid := by
    by_cases hcx : xid = c
    · subst hcx
      have hkey : xid ∈ s.deps_map.map Prod.fst :=
        mem_keys_of_lookup_ne_nil (List.ne_nil_of_mem h3)
      rw [lookupDeps_updateDeps_self hkey]
      exact List.mem_filter.mpr ⟨h3, hbne⟩
    · rw [lookupDeps_updateDeps_other hcx]
      exact h3
  rw [markChild_eq]
  by_cases hd : (lookupDeps s.deps_map c).filter (fun d => d != pid) = []
  · rw [if_pos hd]
    cases hfe : s.findEmail c with
    | some ce =>
      have hcx : c ≠ xid := by
        intro hcx
        subst hcx
        have hfin : fid ∈ (lookupDeps s.deps_map c).filter (fun d => d != pid) :=
          List.mem_filter.mpr ⟨h3, hbne⟩
        rw [hd] at hfin
        exact (List.not_mem_nil fid) hfin
      refine ⟨h1, hupd_keys, hlook, ?_⟩
      intro m hm
      rcases List.mem_cons.mp hm with rfl | hmem
      · exact hcx
      · exact h4 m hmem
    | none => exact ⟨h1, hupd_keys, hlook, h4⟩
  · rw [if_neg hd]
    exact ⟨h1, hupd_keys, hlook, h4⟩

theorem foldl_markChild_foreignInv {emails : List EmailInternal}
    {xid fid pid : String} (hpf : pid ≠ fid) :
    ∀ (l : List String) (s : DependencyScheduler),
      ForeignInv emails xid fid s →
      ForeignInv emails xid fid (l.foldl (markChild pid) s) := by
  intro l
  induction l with
  | nil => intro s hJ; exact hJ
  | cons c rest ih =>
    intro s hJ
    rw [List.foldl_cons]
    exact ih _ (markChild_foreignInv hpf hJ)

theorem mark_done_foreignInv {emails : List EmailInternal} {xid fid : String}
    {s : DependencyScheduler} (pid : String) (hpf : pid ≠ fid)
    (hJ : ForeignInv emails xid fid s) :
    ForeignInv emails xid fid (s.mark_done pid) :=
  foldl_markChild_foreignInv hpf (dependentsOf s.emails0 pid) s hJ

theorem get_ready_batch_foreignInv {emails : List EmailInternal}
    {xid fid : String} {s : DependencyScheduler}
    (hJ : ForeignInv emails xid fid s) (n : ℕ) :
    ForeignInv emails xid fid (s.get_ready_batch n).2 ∧
    ∀ e ∈ (s.get_ready_batch n).1, e.email_id ≠ xid := by
  induction n generalizing s with
  | zero => exact ⟨hJ, by simp [DependencyScheduler.get_ready_batch]⟩
  | succ n ih =>
    cases hp : heappop s.queue with
    | none =>
      simp only [DependencyScheduler.get_ready_batch, hp]
      exact ⟨hJ, by simp⟩
    | some mq =>
      obtain ⟨m, q'⟩ := mq
      obtain ⟨hmin, hq'⟩ := heappop_eq_some hp
      have hm_mem : m ∈ s.queue := heapMin_mem hmin
      have hJ' : ForeignInv emails xid fid { s with queue := q' } := by
        obtain ⟨h1, h2, h3, h4⟩ := hJ
        refine ⟨h1, h2, h3, ?_⟩
        intro mm hmm
        apply h4
        rw [hq'] at hmm
        exact List.mem_of_mem_erase hmm
      obtain ⟨ihJ, ihBatch⟩ := ih hJ'
      simp only [DependencyScheduler.get_ready_batch, hp]
      refine ⟨ihJ, ?_⟩
      intro e he
      cases hfe : s.findEmail m.2 with
      | none =>
        rw [hfe] at he
        exact ihBatch e he
      | some e0 =>
        rw [hfe] at he
        simp only [Option.elim] at he
        rcases List.mem_cons.mp he with rfl | hmem
        · rw [email_id_of_find? hfe]
          exact hJ.2.2.2 m hm_mem
        · exact ihBatch e hmem

theorem stepOp_foreignTraceInv {emails : List EmailInternal}
    {xid fid : String} {t : Trace} (op : Op)
    (hdone : ∀ i, op = Op.done i → i ≠ fid)
    (ht : ForeignTraceInv emails xid fid t) :
    ForeignTraceInv emails xid fid (stepOp t op) := by
  obtain ⟨hJ, hpop⟩ := ht
  cases op with
  | pop =>
    obtain ⟨ihJ, ihBatch⟩ := get_ready_batch_foreignInv hJ 1
    refine ⟨ihJ, ?_⟩
    intro p hp
    simp only [stepOp, DependencyScheduler.pop_next, List.mem_append] at hp
    rcases hp with hnew | hold
    · cases hh : (t.sched.get_ready_batch 1).1.head? with
      | none => rw [hh] at hnew; simp at hnew
      | some e =>
        rw [hh] at hnew
        simp only [Option.elim, List.mem_singleton] at hnew
        subst hnew
        exact ihBatch e (head?_mem hh)
    · exact hpop p hold
  | batch n =>
    obtain ⟨ihJ, ihBatch⟩ := get_ready_batch_foreignInv hJ n
    refine ⟨ihJ, ?_⟩
    intro p hp
    simp only [stepOp, List.mem_append, List.mem_map] at hp
    rcases hp with ⟨e, he, rfl⟩ | hold
    · exact ihBatch e he
    · exact hpop p hold
  | done i =>
    exact ⟨mark_done_foreignInv i (hdone i rfl) hJ, hpop⟩

theorem build_foreignInv {emails : List EmailInternal} {x : EmailInternal}
    {fid : String} {s0 : DependencyScheduler}
    (hids : (emails.map (fun e => e.email_id)).Nodup)
    (hx : x ∈ emails) (hf : fid ∈ x.dependencies)
    (hb : DependencyScheduler.build emails = .ok s0) :
    ForeignInv emails x.email_id fid s0 := by
  rw [DependencyScheduler.build] at hb
  split at hb
  · exact absurd hb (by simp)
  · injection hb with hb2
    subst hb2
    have hfind := find?_eq_some_of_nodup hids hx
    have hlx : fid ∈ lookupDeps (buildDepsMap emails) x.email_id := by
      rw [lookup_buildDepsMap, hfind]
      exact List.mem_dedup.mpr hf
    refine ⟨rfl, buildDepsMap_keys emails, hlx, ?_⟩
    intro m hm
    rw [mem_initQueue] at hm
    obtain ⟨e, he, hl, rfl⟩ := hm
    intro hcontra
    have hex : e = x :=
      List.inj_on_of_nodup_map hids he hx hcontra
    subst hex
    rw [hl] at hlx
    exact (List.not_mem_nil fid) hlx

/-- C10 counterexample: a batch in which one item (`emailW`) declares a
dependency on an id belonging to no item still fails construction, because
an unrelated two-cycle (`emailX`, `emailY`) is present: the claim's
unconditional "construction nevertheless succeeds" is false. -/
theorem foreign_dep_build_can_fail :
    ("missing" ∈ emailW.dependencies) ∧
    ("missing" ∉ [emailW, emailX, emailY].map (fun e => e.email_id)) ∧
    DependencyScheduler.build [emailW, emailX, emailY] =
      .error "Dependency cycle detected" := by
  decide

/-- C10 (amended): for a batch with unique ids in which an item `x`
declares a dependency on an id `fid` belonging to no item of the batch,
whenever construction succeeds (which by C4 is exactly when the declared
relation is acyclic; an unrelated cycle still aborts it), the item `x` is
never inserted into the ready queue and never returned by any pop, under
any operation sequence whose `mark_done` calls use only ids of items in
the batch. -/
theorem foreign_dep_item_never_ready (emails : List EmailInternal)
    (ops : List Op) (x : EmailInternal) (fid : String)
    (s0 : DependencyScheduler)
    (hids : (emails.map (fun e => e.email_id)).Nodup)
    (hx : x ∈ emails) (hf : fid ∈ x.dependencies)
    (hforeign : fid ∉ emails.map (fun e => e.email_id))
    (hops : ∀ i, Op.done i ∈ ops → i ∈ emails.map (fun e => e.email_id))
    (hb : DependencyScheduler.build emails = .ok s0) :
    (∀ m ∈ (runOps s0 ops).sched.queue, m.2 ≠ x.email_id) ∧
    (∀ p ∈ (runOps s0 ops).popped, p.1.email_id ≠ x.email_id) := by
  have hstart : ForeignTraceInv emails x.email_id fid
      { sched := s0, popped := [], doneIds := [] } :=
    ⟨build_foreignInv hids hx hf hb, by simp⟩
  have hfold : ∀ (l : List Op) (t : Trace),
      (∀ i, Op.done i ∈ l → i ∈ emails.map (fun e => e.email_id)) →
      ForeignTraceInv emails x.email_id fid t →
      ForeignTraceInv emails x.email_id fid (l.foldl stepOp t) := by
    intro l
    induction l with
    | nil => intro t _ ht; exact ht
    | cons op rest ih =>
      intro t hl ht
      rw [List.foldl_cons]
      refine ih _ (fun i hi => hl i (List.mem_cons_of_mem op hi)) ?_
      apply stepOp_foreignTraceInv op ?_ ht
      intro i hop
      subst hop
      intro hfi
      exact hforeign (hfi ▸ hl i (List.mem_cons_self _ rest))
  have hres := hfold ops _ hops hstart
  rw [runOps]
  exact ⟨hres.1.2.2.2, hres.2⟩

/-- C10 witness: the amended theorem applied to the acyclic batch
`[emailA, emailW]` (where `emailW` depends on the foreign id `missing`)
and the operation sequence mark `A` done, then pop. -/
theorem foreign_dep_item_never_ready_witness :
    (([emailA, emailW].map (fun e => e.email_id)).Nodup) ∧
    emailW ∈ [emailA, emailW] ∧
    "missing" ∈ emailW.dependencies ∧
    ("missing" ∉ [emailA, emailW].map (fun e => e.email_id)) ∧
    DependencyScheduler.build [emailA, emailW] = .ok schedAW ∧
    ((∀ m ∈ (runOps schedAW [.done "A", .pop]).sched.queue,
        m.2 ≠ emailW.email_id) ∧
     (∀ p ∈ (runOps schedAW [.done "A", .pop]).popped,
        p.1.email_id ≠ emailW.email_id)) :=
  ⟨by decide, by decide, by decide, by decide, by decide,
   foreign_dep_item_never_ready [emailA, emailW] [.done "A", .pop] emailW
     "missing" _ (by decide) (by decide) (by decide) (by decide)
     (by
       intro i hi
       rcases List.mem_cons.mp hi with h | h
       · injection h with h2
         subst h2
         decide
       · rcases List.mem_cons.mp h with h' | h'
         · exact absurd h' (by simp)
         · simp at h')
     (by decide)⟩

end EmailSys
